import Mathlib

/-!
Verification of the monitorism repository's event-matching engine
(`global_events`), its signature canonicalization and topic hashing, and
the tick loops of the liveness-expiration and tip monitors.

The Go code is shallowly embedded: pure functions become Lean functions,
the per-tick RPC interactions become explicit environments recording the
outcome of each call, and Prometheus metric operations become values
collected in result structures.  Go `panic` and error returns are modelled
with `Except` / explicit panic fields.
-/

namespace Monitorism

/-! ## Character classes

`\w` in Go's RE2 (without Unicode flags) is `[0-9A-Za-z_]`; `\s` is
`[\t\n\f\r ]`.  `strings.Fields` splits around runs of `unicode.IsSpace`
characters. -/

/-- `\w` of Go's `regexp`: `[0-9A-Za-z_]`. -/
def isWordChar (c : Char) : Bool :=
  c.isAlphanum || c == '_'

/-- `\s` of Go's `regexp`: `[\t\n\f\r ]`. -/
def isReSpace (c : Char) : Bool :=
  [' ', '\t', '\n', '\x0c', '\r'].contains c

/-- `unicode.IsSpace` for the Latin-1 range, as used by `strings.Fields`. -/
def goIsSpace (c : Char) : Bool :=
  [' ', '\t', '\n', '\x0b', '\x0c', '\r', '\u0085', '\u00A0'].contains c

/-! ## Go string helpers -/

/-- Prepend a non-comma character to the first field of a split result. -/
def splitStep (c : Char) (fields : List (List Char)) : List (List Char) :=
  match fields with
  | [] => [[c]]
  | f :: fs => (c :: f) :: fs

/-- `strings.Split(s, ",")`: split on every comma; the empty string yields
one empty field. -/
def splitOnComma : List Char → List (List Char)
  | [] => [[]]
  | c :: rest =>
    if c == ',' then [] :: splitOnComma rest else splitStep c (splitOnComma rest)

/-- How a non-space character `c` extends the fields of the remaining
input: it starts a fresh field when the remaining input begins with a
space (or has no fields), and otherwise joins the first field. -/
def goFieldsStep (c : Char) (rest : List Char) (restFields : List (List Char)) :
    List (List Char) :=
  match rest, restFields with
  | _, [] => [[c]]
  | r :: _, f :: fs => if goIsSpace r then [c] :: f :: fs else (c :: f) :: fs
  | [], f :: fs => [c] :: f :: fs

/-- `strings.Fields(s)`: the maximal runs of non-whitespace characters. -/
def goFields : List Char → List (List Char)
  | [] => []
  | c :: rest =>
    if goIsSpace c then goFields rest else goFieldsStep c rest (goFields rest)

/-- `strings.Join(l, ",")`. -/
def intercalateComma : List (List Char) → List Char
  | [] => []
  | [t] => t
  | t :: t2 :: ts => t ++ ',' :: intercalateComma (t2 :: ts)

/-! ## formatSignature (global_events)

The Go function extracts the leftmost match of the RE2 pattern
`(\w+)\s*\(([^)]*)\)` and returns `""` when there is no match.  For this
pattern, leftmost-first matching is equivalent to: at each start position
in turn, take the maximal `\w` run (nonempty), the maximal `\s` run, then
require `(`; the parameter group is everything up to the first `)` after
it, and a `)` must be present. -/

/-- Match `(\w+)\s*\(([^)]*)\)` anchored at the head of `l`, returning the
two capture groups (function name, parameter list). -/
def matchAt (l : List Char) : Option (List Char × List Char) :=
  let funcName := l.takeWhile isWordChar
  if funcName.isEmpty then none
  else
    match (l.dropWhile isWordChar).dropWhile isReSpace with
    | '(' :: rest =>
      let params := rest.takeWhile (fun c => c != ')')
      match rest.dropWhile (fun c => c != ')') with
      | ')' :: _ => some (funcName, params)
      | _ => none
    | _ => none

/-- `regexp.FindStringSubmatch` for `(\w+)\s*\(([^)]*)\)`: the leftmost
match, scanning start positions left to right. -/
def findMatch : List Char → Option (List Char × List Char)
  | [] => none
  | c :: cs =>
    match matchAt (c :: cs) with
    | some r => some r
    | none => findMatch cs

/-- The parameter-cleaning loop of `formatSignature`: split the parameter
list on commas and keep, for each field whose `strings.Fields` is
nonempty, its first whitespace-separated token. -/
def cleanParamsOf (params : List Char) : List (List Char) :=
  (splitOnComma params).filterMap (fun param => (goFields param).head?)

/-- `formatSignature` on character lists. -/
def formatSigChars (l : List Char) : List Char :=
  match findMatch l with
  | none => []
  | some (funcName, params) =>
    funcName ++ '(' :: intercalateComma (cleanParamsOf params) ++ [')']

/-- `formatSignature` from global_events: canonicalize
`"transfer(address owner, uint256 amount)"` to
`"transfer(address,uint256)"`; return `""` when the regex does not match. -/
def formatSignature (signature : String) : String :=
  String.mk (formatSigChars signature.toList)

/-! ## Keccak-256 (`crypto.Keccak256`)

Legacy Keccak with rate 1088 bits (136 bytes), capacity 512 bits,
`pad10*1` with domain byte `0x01`, 24 rounds of Keccak-f[1600].  Lanes are
64-bit words represented as `Nat` reduced mod `2^64`; the flat state index
of lane `(x, y)` is `x + 5 * y`.  Byte strings are `List Nat` with entries
below 256; lanes are packed little-endian. -/

/-- Lane lookup in a flat 25-element state. -/
def lget (l : List Nat) (i : Nat) : Nat :=
  l.getD i 0

/-- 64-bit left rotation. -/
def rotl64 (x n : Nat) : Nat :=
  ((x <<< n) ||| (x >>> (64 - n))) % (2 ^ 64)

/-- 64-bit bitwise complement. -/
def not64 (x : Nat) : Nat :=
  x ^^^ (2 ^ 64 - 1)

/-- θ step. -/
def theta (A : List Nat) : List Nat :=
  let C := (List.range 5).map fun x =>
    lget A x ^^^ lget A (x + 5) ^^^ lget A (x + 10) ^^^ lget A (x + 15) ^^^ lget A (x + 20)
  let D := (List.range 5).map fun x =>
    lget C ((x + 4) % 5) ^^^ rotl64 (lget C ((x + 1) % 5)) 1
  (List.range 25).map fun i => lget A i ^^^ lget D (i % 5)

/-- ρ rotation offsets, one row per `y` coordinate (entry `x` of row `y`
is the offset of lane `x + 5 * y`). -/
def rhoOffsetRows : List (List Nat) :=
  [[0, 1, 62, 28, 27],
   [36, 44, 6, 55, 20],
   [3, 10, 43, 25, 39],
   [41, 45, 15, 21, 8],
   [18, 2, 61, 56, 14]]

/-- ρ rotation offsets, flat index `x + 5 * y`. -/
def rhoOffsets : List Nat :=
  rhoOffsetRows.foldr (· ++ ·) []

/-- ρ and π steps: `B[y][(2x+3y) mod 5] = rotl(A[x][y], r[x][y])`. -/
def rhoPi (A : List Nat) : List Nat :=
  (List.range 25).foldl
    (fun B i =>
      let x := i % 5
      let y := i / 5
      B.set (y + 5 * ((2 * x + 3 * y) % 5)) (rotl64 (lget A i) (lget rhoOffsets i)))
    (List.replicate 25 0)

/-- χ step: `A[x][y] = B[x][y] xor ((not B[x+1][y]) and B[x+2][y])`. -/
def chi (B : List Nat) : List Nat :=
  (List.range 25).map fun i =>
    let x := i % 5
    let y := i / 5
    lget B i ^^^ (not64 (lget B ((x + 1) % 5 + 5 * y)) &&& lget B ((x + 2) % 5 + 5 * y))

/-- Keccak round constants for the ι step (the 24 values of the standard
LFSR sequence, written in decimal). -/
def roundConstants : List Nat :=
  [1, 32898, 9223372036854808714,
   9223372039002292224, 32907, 2147483649,
   9223372039002292353, 9223372036854808585, 138,
   136, 2147516425, 2147483658,
   2147516555, 9223372036854775947, 9223372036854808713,
   9223372036854808579, 9223372036854808578, 9223372036854775936,
   32778, 9223372039002259466, 9223372039002292353,
   9223372036854808704, 2147483649, 9223372039002292232]

/-- One Keccak-f round: θ, ρ, π, χ, ι. -/
def keccakRound (A : List Nat) (rc : Nat) : List Nat :=
  let C := chi (rhoPi (theta A))
  C.set 0 (lget C 0 ^^^ rc)

/-- Keccak-f[1600]. -/
def keccakF (A : List Nat) : List Nat :=
  roundConstants.foldl keccakRound A

/-- Pack eight bytes into a lane, little-endian. -/
def bytesToLane (bs : List Nat) : Nat :=
  bs.foldr (fun b acc => acc * 256 + b) 0

/-- Unpack a lane into eight bytes, little-endian. -/
def laneToBytes (x : Nat) : List Nat :=
  (List.range 8).map fun i => (x >>> (8 * i)) % 256

/-- `pad10*1` with Keccak domain byte `0x01` to a multiple of 136 bytes. -/
def keccakPad (m : List Nat) : List Nat :=
  let q := 136 - m.length % 136
  if q == 1 then m ++ [0x81]
  else m ++ 0x01 :: List.replicate (q - 2) 0 ++ [0x80]

/-- XOR one 136-byte block into the state and permute. -/
def absorbBlock (A : List Nat) (block : List Nat) : List Nat :=
  let lanes := (List.range 17).map fun i => bytesToLane ((block.drop (8 * i)).take 8)
  keccakF ((List.range 25).map fun i => lget A i ^^^ lanes.getD i 0)

/-- Absorb the padded message 136 bytes at a time (`fuel` bounds the
number of blocks; the padded length is a multiple of 136). -/
def absorbBlocks : Nat → List Nat → List Nat → List Nat
  | 0, A, _ => A
  | _ + 1, A, [] => A
  | fuel + 1, A, b :: bs =>
    absorbBlocks fuel (absorbBlock A ((b :: bs).take 136)) ((b :: bs).drop 136)

/-- `crypto.Keccak256`: the 32-byte Keccak-256 digest of a byte string. -/
def keccak256 (m : List Nat) : List Nat :=
  let p := keccakPad m
  let A := absorbBlocks p.length (List.replicate 25 0) p
  laneToBytes (lget A 0) ++ laneToBytes (lget A 1) ++
    laneToBytes (lget A 2) ++ laneToBytes (lget A 3)

/-- UTF-8 encoding of one character. -/
def utf8EncodeChar (c : Char) : List Nat :=
  let n := c.toNat
  if n < 0x80 then [n]
  else if n < 0x800 then
    [0xC0 ||| (n >>> 6), 0x80 ||| (n &&& 0x3F)]
  else if n < 0x10000 then
    [0xE0 ||| (n >>> 12), 0x80 ||| ((n >>> 6) &&& 0x3F), 0x80 ||| (n &&& 0x3F)]
  else
    [0xF0 ||| (n >>> 18), 0x80 ||| ((n >>> 12) &&& 0x3F),
     0x80 ||| ((n >>> 6) &&& 0x3F), 0x80 ||| (n &&& 0x3F)]

/-- The UTF-8 bytes of a string (`[]byte(s)` in Go). -/
def strToBytes (s : String) : List Nat :=
  (s.toList.map utf8EncodeChar).foldr (· ++ ·) []

/-! ## Chain data types -/

/-- `common.Hash`: a 32-byte value (here its byte list). -/
structure Hash where
  bytes : List Nat
deriving DecidableEq, Repr

instance : Inhabited Hash := ⟨⟨List.replicate 32 0⟩⟩

/-- `common.Address`: a 20-byte value (represented by its numeric value).
`==` on addresses is value equality, as in Go. -/
structure Address where
  val : Nat
deriving DecidableEq, Repr

/-- `types.Log`: the fields of an observed log that `checkEvents` reads. -/
structure Log where
  address : Address
  topics : List Hash
deriving DecidableEq, Repr

/-! ## FormatAndHash (global_events)

The Go function panics with `"Invalid signature"` when `formatSignature`
returns `""`; the panic is modelled as `Except.error`. -/

/-- `FormatAndHash`: canonicalize, panic on an empty canonical form,
otherwise Keccak-256 of the canonical signature bytes. -/
def FormatAndHash (signature : String) : Except String Hash :=
  let formattedSignature := formatSignature signature
  if formattedSignature = "" then Except.error "Invalid signature"
  else Except.ok ⟨keccak256 (strToBytes formattedSignature)⟩

/-! ## Rule configuration (global_events)

`Configuration`, `GlobalConfiguration` and
`SearchIfATopicIsInsideAnAlert` live in the repository's YAML-loading
file, which is not among the provided sources; they are modelled from the
spec, constrained by how `checkEvents` uses them (the search returns a
single `Configuration` value whose `Name`, `Priority`, `Addresses` and
`Events` fields the caller reads). -/

/-- Modelled from the spec: an `Event` entry of a rule holds the
human-written signature; its `TopicID` is computed once at index-build
time by canonicalizing and hashing the signature. -/
structure Event where
  signature : String
  topic : Hash
deriving DecidableEq, Repr

instance : Inhabited Event := ⟨⟨"", default⟩⟩

/-- A rule from the YAML file: name, priority label, optional address
allow-list, list of events. -/
structure Configuration where
  name : String
  priority : String
  addresses : List Address
  events : List Event
deriving DecidableEq, Repr

/-- The ordered rule set loaded from the YAML file. -/
structure GlobalConfiguration where
  configuration : List Configuration
deriving DecidableEq, Repr

/-- Modelled from the spec: `SearchIfATopicIsInsideAnAlert` (missing
YAML-layer source) returns the rule that references the topic, matching a
rule on its first listed event's `TopicID` (the spec notes the reference
behavior indexes only a rule's first listed event), and a zero-value
`Configuration` (empty `Events`) when no rule references the topic.  The
caller's use forces the return type to be one single `Configuration`. -/
def GlobalConfiguration.SearchIfATopicIsInsideAnAlert
    (g : GlobalConfiguration) (topic : Hash) : Configuration :=
  match g.configuration.find? (fun c =>
    match c.events.head? with
    | some e => e.topic == topic
    | none => false) with
  | some c => c
  | none => ⟨"", "", [], []⟩

/-- `isAddressIntoConfig`: an empty address list in the rule matches every
address; otherwise the log's address must equal one of the listed ones. -/
def isAddressIntoConfig (address : Address) (config : Configuration) : Bool :=
  if config.addresses.isEmpty then true
  else config.addresses.any (fun addr => addr == address)

/-! ## checkEvents tick (global_events)

The tick's RPC interactions are captured by an environment recording the
outcome of `HeaderByNumber` and `FilterLogs`; metric side effects are
collected in a result: counter increments as `(section, name)` label
pairs of `unexpectedRpcErrors`, gauge sets as `eventEmitted` samples. -/

/-- The header fields `checkEvents` reads. -/
structure Header where
  number : Nat
deriving DecidableEq, Repr

/-- One `eventEmitted.WithLabelValues(...).Set(1)` sample. -/
structure MetricSample where
  nickname : String
  rulename : String
  priority : String
  functionName : String
  address : Address
  value : Nat
deriving DecidableEq, Repr

/-- Outcomes of the RPC calls a `checkEvents` tick makes: `none` is a
failed call.  `filterLogs` is keyed by the queried block number (the
query's `FromBlock = ToBlock = header.Number`). -/
structure TickEnv where
  headerByNumber : Option Header
  filterLogs : Nat → Option (List Log)

/-- Metric side effects of one tick. -/
structure TickResult where
  counterIncs : List (String × String)
  gaugeSets : List MetricSample
deriving DecidableEq, Repr

/-- The body of the log loop in `checkEvents`: skip anonymous logs (zero
topics), look the first topic up in the rule set, check the address
scope, and emit one `eventEmitted` sample labelled with the rule's name,
priority and first event's signature. -/
def processLog (g : GlobalConfiguration) (nickname : String) (vLog : Log) :
    Option MetricSample :=
  match vLog.topics with
  | [] => none
  | topic0 :: _ =>
    if (g.SearchIfATopicIsInsideAnAlert topic0).events.length > 0 then
      let config := g.SearchIfATopicIsInsideAnAlert topic0
      if isAddressIntoConfig vLog.address config then
        some ⟨nickname, config.name, config.priority,
              (config.events.headD default).signature, vLog.address, 1⟩
      else none
    else none

/-- `checkEvents`: fetch the latest header, fetch that block's logs, run
the matching loop.  A failed RPC call increments `unexpectedRpcErrors`
with the labels the Go code passes and aborts the tick. -/
def checkEvents (env : TickEnv) (g : GlobalConfiguration) (nickname : String) :
    TickResult :=
  match env.headerByNumber with
  | none => ⟨[("L1", "HeaderByNumber")], []⟩
  | some header =>
    match env.filterLogs header.number with
    | none => ⟨[("L1", "FilterLogs")], []⟩
    | some logs => ⟨[], logs.filterMap (processLog g nickname)⟩

/-! ## liveness_expiration Run

Go zero-value semantics of the error paths are modelled exactly: a failed
`BlockNumber` leaves `latestL1Height = 0` (a `uint64`), a failed
`GetOwners` leaves a `nil` slice (ranged over as empty), while failed
`LastLive` / `LivenessInterval` leave a `nil` `*big.Int` on which the
subsequent `.Uint64()` call dereferences nil and panics. -/

/-- Outcomes of the RPC calls one liveness_expiration tick makes. -/
structure LivenessEnv where
  blockNumber : Option Nat
  getOwners : Option (List Address)
  lastLive : Address → Option Nat
  livenessInterval : Option Nat

/-- One gauge write `metric.WithLabelValues(label).Set(value)`. -/
structure GaugeSet where
  metric : String
  label : String
  value : Nat
deriving DecidableEq, Repr

/-- Side effects of one liveness_expiration tick; `panicMsg` records a Go
runtime panic aborting the tick (metrics written before it are kept). -/
structure LivenessOutcome where
  counterIncs : List (String × String)
  gaugeSets : List GaugeSet
  panicMsg : Option String
deriving DecidableEq, Repr

/-- The owner loop of `liveness_expiration.Run`: on a `LastLive` error the
counter is incremented, but the following `lastLive.Uint64()` runs on the
`nil` result and panics. -/
def livenessOwnersLoop (env : LivenessEnv) : List Address → LivenessOutcome
  | [] => ⟨[], [], none⟩
  | owner :: rest =>
    match env.lastLive owner with
    | none =>
      ⟨[("l1", "LastLive")], [], some "runtime error: nil pointer dereference"⟩
    | some lastLive =>
      let r := livenessOwnersLoop env rest
      ⟨r.counterIncs,
       ⟨"lastLiveOfAOwner", toString owner.val, lastLive⟩ :: r.gaugeSets,
       r.panicMsg⟩

/-- `liveness_expiration.Run`: none of the error paths returns early; the
tick keeps going with the failed call's zero value.  For `BlockNumber`
that is `0`, for `GetOwners` the empty list, and for `LivenessInterval`
the `nil` `*big.Int` on which `interval.Uint64()` panics. -/
def livenessRun (env : LivenessEnv) : LivenessOutcome :=
  let bn := match env.blockNumber with
    | none => (0, [("l1", "blockNumber")])
    | some n => (n, [])
  let owners := match env.getOwners with
    | none => (([] : List Address), [("l1", "GetOwners")])
    | some l => (l, [])
  let loop := livenessOwnersLoop env owners.1
  match loop.panicMsg with
  | some msg => ⟨bn.2 ++ owners.2 ++ loop.counterIncs, loop.gaugeSets, some msg⟩
  | none =>
    match env.livenessInterval with
    | none =>
      ⟨bn.2 ++ owners.2 ++ loop.counterIncs ++ [("l1", "LivenessInterval")],
       loop.gaugeSets, some "runtime error: nil pointer dereference"⟩
    | some interval =>
      ⟨bn.2 ++ owners.2 ++ loop.counterIncs,
       loop.gaugeSets ++
         [⟨"intervalLiveness", "interval", interval⟩,
          ⟨"highestBlockNumber", "blockNumber", bn.1⟩],
       none⟩

/-! ## Concrete sample values used in witnesses and counterexamples -/

/-- A sample topic identifier. -/
def sampleTopic : Hash := ⟨[1, 2, 3]⟩

/-- Rule "R1": no address scope, one event with `sampleTopic`. -/
def ruleR1 : Configuration :=
  ⟨"R1", "P0", [], [⟨"Transfer(address,address,uint256)", sampleTopic⟩]⟩

/-- Rule "R2": distinct from "R1" but referencing the same event
signature, hence the same topic. -/
def ruleR2 : Configuration :=
  ⟨"R2", "P1", [], [⟨"Transfer(address,address,uint256)", sampleTopic⟩]⟩

/-- A rule set with two distinct rules sharing one topic. -/
def twoRuleConfig : GlobalConfiguration := ⟨[ruleR1, ruleR2]⟩

/-- A log bearing the shared topic. -/
def sharedTopicLog : Log := ⟨⟨0xABCD⟩, [sampleTopic]⟩

/-- A tick whose RPC calls all succeed and return one log. -/
def tickEnvOK : TickEnv := ⟨some ⟨100⟩, fun _ => some [sharedTopicLog]⟩

/-- A tick whose log fetch fails. -/
def tickEnvNoLogs : TickEnv := ⟨some ⟨100⟩, fun _ => none⟩

/-- A tick whose header fetch fails. -/
def tickEnvNoHeader : TickEnv := ⟨none, fun _ => some []⟩

/-- A liveness tick where only the `BlockNumber` RPC call fails. -/
def livenessEnvBlockFail : LivenessEnv := ⟨none, some [], fun _ => none, some 50⟩

/-- A liveness tick where only the `LivenessInterval` contract read fails. -/
def livenessEnvIntervalFail : LivenessEnv := ⟨some 100, some [], fun _ => none, none⟩

/-- A liveness tick with one owner where only the `LastLive` contract read
fails. -/
def livenessEnvLastLiveFail : LivenessEnv :=
  ⟨some 100, some [⟨17⟩], fun _ => none, some 50⟩

/-! ## Spec-side definitions

For the refinement claims about canonicalization, the spec's own wording
("split the parameter list on commas; for each non-empty comma-separated
field, take its first whitespace-separated token as the type; a
whitespace-only field produces no type") is formalized separately and
compared with the code's definition. -/

/-- Spec-side: the first whitespace-separated token of a comma field;
`none` when the field is empty or whitespace-only. -/
def firstTypeToken (field : List Char) : Option (List Char) :=
  match field.dropWhile goIsSpace with
  | [] => none
  | c :: rest => some (c :: rest.takeWhile (fun x => !goIsSpace x))

/-- Spec-side: the list of types extracted from a parameter list. -/
def specCleanTypes (params : List Char) : List (List Char) :=
  (splitOnComma params).filterMap firstTypeToken

/-! ## Helper lemmas: maximal-munch runs -/

theorem takeWhile_append_cons (p : Char → Bool) (l1 : List Char) (c : Char)
    (l2 : List Char) (h1 : ∀ x ∈ l1, p x = true) (h2 : p c = false) :
    (l1 ++ c :: l2).takeWhile p = l1 := by
  induction l1 with
  | nil => simp [List.takeWhile_cons, h2]
  | cons a l ih =>
    have ha : p a = true := h1 a (by simp)
    simp only [List.cons_append, List.takeWhile_cons, ha, if_true]
    simp [ih fun x hx => h1 x (by simp [hx])]

theorem dropWhile_append_cons (p : Char → Bool) (l1 : List Char) (c : Char)
    (l2 : List Char) (h1 : ∀ x ∈ l1, p x = true) (h2 : p c = false) :
    (l1 ++ c :: l2).dropWhile p = c :: l2 := by
  induction l1 with
  | nil => simp [List.dropWhile_cons, h2]
  | cons a l ih =>
    have ha : p a = true := h1 a (by simp)
    simp only [List.cons_append, List.dropWhile_cons, ha, if_true]
    exact ih fun x hx => h1 x (by simp [hx])

/-- On an input of the shape `name(params…)…`, the regex match anchored at
position 0 captures exactly `name` and the characters up to the first
`)`. -/
theorem matchAt_shape (name params rest : List Char) (hne : name ≠ [])
    (hw : ∀ c ∈ name, isWordChar c = true) (hp : ∀ c ∈ params, c ≠ ')') :
    matchAt (name ++ '(' :: (params ++ ')' :: rest)) = some (name, params) := by
  have hwp : isWordChar '(' = false := rfl
  have htw : (name ++ '(' :: (params ++ ')' :: rest)).takeWhile isWordChar = name :=
    takeWhile_append_cons _ _ _ _ hw hwp
  have hdw : (name ++ '(' :: (params ++ ')' :: rest)).dropWhile isWordChar =
      '(' :: (params ++ ')' :: rest) :=
    dropWhile_append_cons _ _ _ _ hw hwp
  have hsp : isReSpace '(' = false := rfl
  have hp2 : ∀ c ∈ params, (c != ')') = true := by
    intro c hc
    simpa using hp c hc
  have hclose : ((')' : Char) != ')') = false := by decide
  have htw2 : (params ++ ')' :: rest).takeWhile (fun c => c != ')') = params :=
    takeWhile_append_cons _ _ _ _ hp2 hclose
  have hdw2 : (params ++ ')' :: rest).dropWhile (fun c => c != ')') = ')' :: rest :=
    dropWhile_append_cons _ _ _ _ hp2 hclose
  unfold matchAt
  simp only [htw, hdw, List.dropWhile_cons, hsp, Bool.false_eq_true, if_false,
    List.isEmpty_iff, hne, htw2, hdw2]

/-- The leftmost regex match on `name(params…)…` starting with a word run
is the anchored one. -/
theorem findMatch_shape (name params rest : List Char) (hne : name ≠ [])
    (hw : ∀ c ∈ name, isWordChar c = true) (hp : ∀ c ∈ params, c ≠ ')') :
    findMatch (name ++ '(' :: (params ++ ')' :: rest)) = some (name, params) := by
  match name, hne with
  | n0 :: name', _ =>
    have hm := matchAt_shape (n0 :: name') params rest (by simp) hw hp
    rw [List.cons_append] at hm ⊢
    rw [findMatch, hm]

/-- `formatSignature` on `name(params…)…`: reassemble the name with the
cleaned parameter types; everything after the first `)` is dropped. -/
theorem formatSigChars_shape (name params rest : List Char) (hne : name ≠ [])
    (hw : ∀ c ∈ name, isWordChar c = true) (hp : ∀ c ∈ params, c ≠ ')') :
    formatSigChars (name ++ '(' :: (params ++ ')' :: rest)) =
      name ++ '(' :: intercalateComma (cleanParamsOf params) ++ [')'] := by
  unfold formatSigChars
  rw [findMatch_shape name params rest hne hw hp]

/-! ## Helper lemmas: fields and splitting -/

theorem firstTypeToken_cons_space (c : Char) (rest : List Char)
    (hc : goIsSpace c = true) :
    firstTypeToken (c :: rest) = firstTypeToken rest := by
  unfold firstTypeToken
  rw [List.dropWhile_cons, if_pos hc]

theorem firstTypeToken_cons_nonspace (c : Char) (rest : List Char)
    (hc : goIsSpace c = false) :
    firstTypeToken (c :: rest) =
      some (c :: rest.takeWhile (fun x => !goIsSpace x)) := by
  unfold firstTypeToken
  rw [List.dropWhile_cons, if_neg (by simp [hc])]

/-- The head of `strings.Fields` is the spec's first whitespace-separated
token. -/
theorem goFields_head (l : List Char) : (goFields l).head? = firstTypeToken l := by
  induction l with
  | nil => rfl
  | cons c rest ih =>
    by_cases hc : goIsSpace c = true
    · rw [goFields, if_pos hc, ih, firstTypeToken_cons_space c rest hc]
    · have hc' : goIsSpace c = false := by simpa using hc
      rw [firstTypeToken_cons_nonspace c rest hc']
      rw [goFields, if_neg (by simp [hc'])]
      cases rest with
      | nil => simp [goFieldsStep, goFields]
      | cons r rs =>
        cases hgf : goFields (r :: rs) with
        | nil =>
          rw [hgf] at ih
          simp only [List.head?_nil] at ih
          have hr : goIsSpace r = true := by
            by_contra hr0
            have hr' : goIsSpace r = false := by simpa using hr0
            rw [firstTypeToken_cons_nonspace r rs hr'] at ih
            simp at ih
          simp [goFieldsStep, List.takeWhile_cons, hr]
        | cons f fs =>
          by_cases hr : goIsSpace r = true
          · simp [goFieldsStep, List.takeWhile_cons, hr]
          · have hr' : goIsSpace r = false := by simpa using hr
            rw [hgf] at ih
            rw [firstTypeToken_cons_nonspace r rs hr'] at ih
            simp only [List.head?_cons, Option.some.injEq] at ih
            simp only [goFieldsStep, hr', Bool.false_eq_true, if_false,
              List.head?_cons]
            rw [List.takeWhile_cons, if_pos (by simp [hr']), ih]

theorem splitOnComma_ne_nil (l : List Char) : splitOnComma l ≠ [] := by
  cases l with
  | nil => simp [splitOnComma]
  | cons c rest =>
    rw [splitOnComma]
    by_cases hc : (c == ',') = true
    · simp [hc]
    · rw [if_neg (by simpa using hc)]
      cases h : splitOnComma rest <;> simp [splitStep]

theorem splitOnComma_append (t rest : List Char) (f : List Char)
    (fs : List (List Char)) (h : splitOnComma rest = f :: fs)
    (ht : ∀ c ∈ t, c ≠ ',') :
    splitOnComma (t ++ rest) = (t ++ f) :: fs := by
  induction t with
  | nil => simpa using h
  | cons c t' ih =>
    have hc : (c == ',') = false := by
      simpa using ht c (by simp)
    rw [List.cons_append, splitOnComma, hc]
    simp only [Bool.false_eq_true, if_false]
    rw [ih fun x hx => ht x (by simp [hx])]
    simp [splitStep]

theorem splitOnComma_comma_free (t : List Char) (ht : ∀ c ∈ t, c ≠ ',') :
    splitOnComma t = [t] := by
  have := splitOnComma_append t [] [] [] rfl ht
  simpa using this

/-- Splitting undoes `strings.Join` with commas when no type contains a
comma. -/
theorem splitOnComma_intercalate (t : List Char) (ts : List (List Char))
    (ht : ∀ c ∈ t, c ≠ ',') (hts : ∀ t2 ∈ ts, ∀ c ∈ t2, c ≠ ',') :
    splitOnComma (intercalateComma (t :: ts)) = t :: ts := by
  induction ts generalizing t with
  | nil => exact splitOnComma_comma_free t ht
  | cons t2 ts' ih =>
    have h2 : splitOnComma (intercalateComma (t2 :: ts')) = t2 :: ts' :=
      ih t2 (hts t2 (by simp)) fun x hx => hts x (by simp [hx])
    have hcomma : splitOnComma (',' :: intercalateComma (t2 :: ts')) =
        [] :: t2 :: ts' := by
      rw [splitOnComma, if_pos (by simp), h2]
    have := splitOnComma_append t (',' :: intercalateComma (t2 :: ts'))
      [] (t2 :: ts') hcomma ht
    rw [intercalateComma, this]
    simp

theorem mem_splitOnComma_subset (l : List Char) (f : List Char)
    (hf : f ∈ splitOnComma l) : ∀ c ∈ f, c ∈ l := by
  induction l generalizing f with
  | nil =>
    simp only [splitOnComma, List.mem_singleton] at hf
    subst hf
    simp
  | cons a rest ih =>
    rw [splitOnComma] at hf
    by_cases ha : (a == ',') = true
    · rw [if_pos ha] at hf
      rcases List.mem_cons.mp hf with h | h
      · subst h; simp
      · intro c hc; exact List.mem_cons_of_mem a (ih f h c hc)
    · rw [if_neg (by simpa using ha)] at hf
      cases hs : splitOnComma rest with
      | nil => exact absurd hs (splitOnComma_ne_nil rest)
      | cons g gs =>
        rw [hs] at hf
        simp only [splitStep] at hf
        rcases List.mem_cons.mp hf with h | h
        · subst h
          intro c hc
          rcases List.mem_cons.mp hc with h | h
          · subst h; simp
          · exact List.mem_cons_of_mem a (ih g (by simp [hs]) c h)
        · intro c hc
          exact List.mem_cons_of_mem a (ih f (by simp [hs, h]) c hc)

theorem mem_splitOnComma_no_comma (l : List Char) (f : List Char)
    (hf : f ∈ splitOnComma l) : ∀ c ∈ f, c ≠ ',' := by
  induction l generalizing f with
  | nil =>
    simp only [splitOnComma, List.mem_singleton] at hf
    subst hf
    simp
  | cons a rest ih =>
    rw [splitOnComma] at hf
    by_cases ha : (a == ',') = true
    · rw [if_pos ha] at hf
      rcases List.mem_cons.mp hf with h | h
      · subst h; simp
      · exact ih f h
    · have ha' : a ≠ ',' := by simpa using ha
      rw [if_neg (by simpa using ha)] at hf
      cases hs : splitOnComma rest with
      | nil => exact absurd hs (splitOnComma_ne_nil rest)
      | cons g gs =>
        rw [hs] at hf
        simp only [splitStep] at hf
        rcases List.mem_cons.mp hf with h | h
        · subst h
          intro c hc
          rcases List.mem_cons.mp hc with h | h
          · subst h; exact ha'
          · exact ih g (by simp [hs]) c h
        · exact ih f (by simp [hs, h])

theorem mem_intercalateComma (ts : List (List Char)) (c : Char)
    (hc : c ∈ intercalateComma ts) : c = ',' ∨ ∃ t ∈ ts, c ∈ t := by
  induction ts with
  | nil => simp [intercalateComma] at hc
  | cons t ts' ih =>
    cases ts' with
    | nil =>
      rw [intercalateComma] at hc
      exact Or.inr ⟨t, by simp, hc⟩
    | cons t2 ts'' =>
      rw [intercalateComma] at hc
      rcases List.mem_append.mp hc with h | h
      · exact Or.inr ⟨t, by simp, h⟩
      · rcases List.mem_cons.mp h with h | h
        · exact Or.inl h
        · rcases ih h with h | ⟨u, hu, hcu⟩
          · exact Or.inl h
          · exact Or.inr ⟨u, by simp [List.mem_cons.mp hu], hcu⟩

theorem filterMap_eq_self {α : Type} (f : α → Option α) (l : List α)
    (h : ∀ x ∈ l, f x = some x) : l.filterMap f = l := by
  induction l with
  | nil => rfl
  | cons a l' ih =>
    rw [List.filterMap_cons, h a (by simp), ih fun x hx => h x (by simp [hx])]

/-- The code's parameter cleaning coincides with the spec's wording. -/
theorem cleanParamsOf_eq_spec (params : List Char) :
    cleanParamsOf params = specCleanTypes params := by
  unfold cleanParamsOf specCleanTypes
  congr 1
  funext param
  exact goFields_head param

/-! ## Helper lemmas: structure of regex-match output -/

theorem matchAt_props (l name params : List Char)
    (h : matchAt l = some (name, params)) :
    name ≠ [] ∧ (∀ c ∈ name, isWordChar c = true) ∧ ∀ c ∈ params, c ≠ ')' := by
  unfold matchAt at h
  by_cases he : (l.takeWhile isWordChar).isEmpty = true
  · rw [if_pos he] at h
    exact absurd h (by simp)
  · rw [if_neg he] at h
    split at h
    · split at h
      · simp only [Option.some.injEq, Prod.mk.injEq] at h
        obtain ⟨hn, hps⟩ := h
        refine ⟨?_, ?_, ?_⟩
        · intro hnil
          rw [hn, hnil] at he
          simp at he
        · intro c hc
          rw [← hn] at hc
          exact List.mem_takeWhile_imp hc
        · intro c hc
          rw [← hps] at hc
          have := List.mem_takeWhile_imp hc
          simpa using this
      · exact absurd h (by simp)
    · exact absurd h (by simp)

theorem findMatch_props (l name params : List Char)
    (h : findMatch l = some (name, params)) :
    name ≠ [] ∧ (∀ c ∈ name, isWordChar c = true) ∧ ∀ c ∈ params, c ≠ ')' := by
  induction l with
  | nil => simp [findMatch] at h
  | cons c cs ih =>
    rw [findMatch] at h
    cases hm : matchAt (c :: cs) with
    | some r =>
      rw [hm] at h
      simp only [Option.some.injEq] at h
      subst h
      exact matchAt_props (c :: cs) name params hm
    | none =>
      rw [hm] at h
      exact ih h

theorem dropWhile_head_false (p : Char → Bool) (l : List Char) (c : Char)
    (cs : List Char) (h : l.dropWhile p = c :: cs) : p c = false := by
  induction l with
  | nil => simp at h
  | cons a rest ih =>
    rw [List.dropWhile_cons] at h
    by_cases ha : p a = true
    · rw [if_pos ha] at h
      exact ih h
    · rw [if_neg ha] at h
      obtain ⟨h1, _⟩ := List.cons.injEq .. ▸ h
      exact h1 ▸ (by simpa using ha)

/-- A nonempty whitespace-free field is its own first token. -/
theorem firstTypeToken_of_clean (t : List Char) (hne : t ≠ [])
    (hs : ∀ c ∈ t, goIsSpace c = false) : firstTypeToken t = some t := by
  cases t with
  | nil => exact absurd rfl hne
  | cons c rest =>
    rw [firstTypeToken_cons_nonspace c rest (hs c (by simp))]
    have : rest.takeWhile (fun x => !goIsSpace x) = rest := by
      rw [List.takeWhile_eq_self_iff]
      intro x hx
      simp [hs x (by simp [hx])]
    rw [this]

/-- Cleaning the parameters of a canonical joined type list returns the
type list itself. -/
theorem cleanParamsOf_intercalate (types : List (List Char))
    (h : ∀ t ∈ types, t ≠ [] ∧ ∀ c ∈ t,
      goIsSpace c = false ∧ c ≠ ',' ∧ c ≠ ')') :
    cleanParamsOf (intercalateComma types) = types := by
  cases types with
  | nil => rfl
  | cons t ts =>
    rw [cleanParamsOf_eq_spec, specCleanTypes,
      splitOnComma_intercalate t ts
        (fun c hc => ((h t (by simp)).2 c hc).2.1)
        (fun u hu c hc => ((h u (by simp [hu])).2 c hc).2.1)]
    apply filterMap_eq_self
    intro x hx
    exact firstTypeToken_of_clean x (h x hx).1 fun c hc => ((h x hx).2 c hc).1

/-- Every cleaned parameter type is nonempty, whitespace-free, and made of
characters of the original parameter list other than commas. -/
theorem mem_cleanParamsOf_props (params t : List Char)
    (ht : t ∈ cleanParamsOf params) :
    t ≠ [] ∧ ∀ c ∈ t, goIsSpace c = false ∧ c ≠ ',' ∧ c ∈ params := by
  unfold cleanParamsOf at ht
  rcases List.mem_filterMap.mp ht with ⟨field, hfield, hhead⟩
  rw [goFields_head] at hhead
  unfold firstTypeToken at hhead
  cases hdw : field.dropWhile goIsSpace with
  | nil => rw [hdw] at hhead; simp at hhead
  | cons c rest =>
    rw [hdw] at hhead
    simp only [Option.some.injEq] at hhead
    subst hhead
    have hsubfield : ∀ x ∈ c :: rest, x ∈ field := fun x hx =>
      (List.dropWhile_sublist goIsSpace (l := field)).subset (hdw ▸ hx)
    have hcfalse : goIsSpace c = false := dropWhile_head_false _ _ _ _ hdw
    refine ⟨by simp, ?_⟩
    intro x hx
    rcases List.mem_cons.mp hx with hxc | hxr
    · subst hxc
      exact ⟨hcfalse,
        mem_splitOnComma_no_comma params field hfield x (hsubfield x (by simp)),
        mem_splitOnComma_subset params field hfield x (hsubfield x (by simp))⟩
    · have hxrest : x ∈ rest := (List.takeWhile_sublist _ (l := rest)).subset hxr
      have hxfield : x ∈ field := hsubfield x (by simp [hxrest])
      refine ⟨by simpa using List.mem_takeWhile_imp hxr,
        mem_splitOnComma_no_comma params field hfield x hxfield,
        mem_splitOnComma_subset params field hfield x hxfield⟩

/-- Canonical signatures (word-character name, nonempty comma-free
whitespace-free paren-free types) are fixed points of `formatSignature`. -/
theorem formatSigChars_canonical (name : List Char) (types : List (List Char))
    (hne : name ≠ []) (hw : ∀ c ∈ name, isWordChar c = true)
    (h : ∀ t ∈ types, t ≠ [] ∧ ∀ c ∈ t,
      goIsSpace c = false ∧ c ≠ ',' ∧ c ≠ ')') :
    formatSigChars (name ++ '(' :: intercalateComma types ++ [')']) =
      name ++ '(' :: intercalateComma types ++ [')'] := by
  have hp : ∀ c ∈ intercalateComma types, c ≠ ')' := by
    intro c hc
    rcases mem_intercalateComma types c hc with h1 | ⟨t, htt, hct⟩
    · subst h1; decide
    · exact ((h t htt).2 c hct).2.2
  have := formatSigChars_shape name (intercalateComma types) [] hne hw hp
  rw [cleanParamsOf_intercalate types h] at this
  simpa [List.cons_append] using this

/-- `formatSignature` is idempotent on character lists: a nonempty output
is a fixed point. -/
theorem formatSigChars_idempotent (l : List Char)
    (h : formatSigChars l ≠ []) :
    formatSigChars (formatSigChars l) = formatSigChars l := by
  cases hm : findMatch l with
  | none => rw [formatSigChars, hm] at h; exact absurd rfl h
  | some r =>
    obtain ⟨name, params⟩ := r
    obtain ⟨hne, hw, hp⟩ := findMatch_props l name params hm
    have hout : formatSigChars l =
        name ++ '(' :: intercalateComma (cleanParamsOf params) ++ [')'] := by
      rw [formatSigChars, hm]
    rw [hout]
    apply formatSigChars_canonical name (cleanParamsOf params) hne hw
    intro t htmem
    obtain ⟨htne, htall⟩ := mem_cleanParamsOf_props params t htmem
    refine ⟨htne, ?_⟩
    intro c hc
    obtain ⟨h1, h2, h3⟩ := htall c hc
    exact ⟨h1, h2, hp c h3⟩

/-! ## Claim theorems -/

/-- C1: for every signature of the shape `name(params)`, `formatSignature`
strips whitespace and parameter names, preserves parameter order, joins
the types with commas and no surrounding space, takes for each non-empty
comma-separated field its first whitespace-separated token as the type,
skips whitespace-only fields, and yields zero types for an empty parameter
list; `"transfer(address owner, uint256 amount)"` canonicalizes to
`"transfer(address,uint256)"`. -/
theorem C1_formatSignature_canonicalizes :
    (∀ name params : List Char, name ≠ [] →
      (∀ c ∈ name, isWordChar c = true) → (∀ c ∈ params, c ≠ ')') →
      formatSigChars (name ++ '(' :: (params ++ [')'])) =
        name ++ '(' :: intercalateComma (specCleanTypes params) ++ [')']) ∧
    formatSignature "transfer(address owner, uint256 amount)" =
      "transfer(address,uint256)" ∧
    formatSignature "f()" = "f()" ∧
    formatSignature "g(address, )" = "g(address)" := by
  refine ⟨?_, by decide, by decide, by decide⟩
  intro name params hne hw hp
  have := formatSigChars_shape name params [] hne hw hp
  rw [cleanParamsOf_eq_spec] at this
  exact this

theorem C1_formatSignature_canonicalizes_witness :
    (['f'] : List Char) ≠ [] ∧
    formatSigChars (['f'] ++ '(' ::
        ("address owner, uint256 amount".toList ++ [')'])) =
      ['f'] ++ '(' ::
        intercalateComma (specCleanTypes "address owner, uint256 amount".toList)
        ++ [')'] :=
  ⟨by decide,
   C1_formatSignature_canonicalizes.1 ['f'] "address owner, uint256 amount".toList
     (by decide) (by decide) (by decide)⟩

/-- C2: `FormatAndHash` is pure and deterministic, with no salt and no
domain separation: a successful result is exactly the Keccak-256 digest of
the UTF-8 bytes of the canonical signature, so identical canonical
signatures yield identical TopicIDs. -/
theorem C2_FormatAndHash_pure_keccak :
    (∀ s : String, formatSignature s ≠ "" →
      FormatAndHash s =
        Except.ok ⟨keccak256 (strToBytes (formatSignature s))⟩) ∧
    ∀ s1 s2 : String, formatSignature s1 = formatSignature s2 →
      FormatAndHash s1 = FormatAndHash s2 := by
  constructor
  · intro s hs
    unfold FormatAndHash
    rw [if_neg hs]
  · intro s1 s2 h
    unfold FormatAndHash
    rw [h]

theorem C2_FormatAndHash_pure_keccak_witness :
    FormatAndHash "transfer(address,uint256)" =
      Except.ok ⟨keccak256 (strToBytes
        (formatSignature "transfer(address,uint256)"))⟩ ∧
    FormatAndHash "transfer(address owner, uint256 amount)" =
      FormatAndHash "transfer(address a, uint256 b)" :=
  ⟨C2_FormatAndHash_pure_keccak.1 "transfer(address,uint256)" (by decide),
   C2_FormatAndHash_pure_keccak.2 "transfer(address owner, uint256 amount)"
     "transfer(address a, uint256 b)" (by decide)⟩

/-- C3: a log with zero topics never matches and emits no metric sample,
regardless of the rule set. -/
theorem C3_anonymous_log_never_matches (g : GlobalConfiguration)
    (nickname : String) (vLog : Log) (h : vLog.topics = []) :
    processLog g nickname vLog = none := by
  obtain ⟨addr, topics⟩ := vLog
  simp only at h
  subst h
  rfl

theorem C3_anonymous_log_never_matches_witness :
    (⟨⟨5⟩, []⟩ : Log).topics = [] ∧
    processLog twoRuleConfig "guard" ⟨⟨5⟩, []⟩ = none :=
  ⟨rfl, C3_anonymous_log_never_matches twoRuleConfig "guard" ⟨⟨5⟩, []⟩ rfl⟩

/-- C4: address scoping of `isAddressIntoConfig`: an empty rule address
set matches every address; a non-empty one matches exactly the addresses
it contains. -/
theorem C4_address_scoping (address : Address) (config : Configuration) :
    isAddressIntoConfig address config = true ↔
      config.addresses = [] ∨ address ∈ config.addresses := by
  unfold isAddressIntoConfig
  by_cases he : config.addresses.isEmpty = true
  · rw [if_pos he]
    simp [List.isEmpty_iff.mp he]
  · rw [if_neg he]
    have hne : config.addresses ≠ [] := by
      simpa [List.isEmpty_iff] using he
    simp only [List.any_eq_true, beq_iff_eq]
    constructor
    · rintro ⟨a, ha, rfl⟩
      exact Or.inr ha
    · rintro (h | h)
      · exact absurd h hne
      · exact ⟨address, h, rfl⟩

/-- C5 counterexample: two distinct rules share the same topic and both
pass the address scope, yet one observed log bearing that topic produces
exactly one metric sample, not two.  `checkEvents` looks the topic up
through a search returning one single rule, so a second matching rule
never emits. -/
theorem C5_shared_topic_single_sample_cex :
    (checkEvents tickEnvOK twoRuleConfig "guard").gaugeSets.length = 1 ∧
    (checkEvents tickEnvOK twoRuleConfig "guard").gaugeSets.length ≠ 2 := by
  constructor <;> decide

/-- C5 (amended): each observed log yields at most one MatchResult per
tick, whichever single rule the topic search returns; two rules sharing a
TopicID do not yield two samples for one log. -/
theorem C5_amended_at_most_one_sample_per_log (g : GlobalConfiguration)
    (nickname : String) (logs : List Log) :
    (logs.filterMap (processLog g nickname)).length ≤ logs.length :=
  List.length_filterMap_le _ _

/-- C6 counterexample: in the liveness-expiration monitor a failed
`BlockNumber` RPC call does not abort the tick: the error counter is
incremented, yet the tick still writes the `intervalLiveness` gauge and
writes the `highestBlockNumber` gauge with the failed call's zero value —
partial (and corrupt) metric emission on a transient RPC failure. -/
theorem C6_liveness_partial_emission_cex :
    livenessRun livenessEnvBlockFail =
      ⟨[("l1", "blockNumber")],
       [⟨"intervalLiveness", "interval", 50⟩,
        ⟨"highestBlockNumber", "blockNumber", 0⟩], none⟩ ∧
    (livenessRun livenessEnvBlockFail).gaugeSets ≠ [] := by
  constructor <;> decide

/-- C6 (amended): in the global events monitor's `checkEvents` tick, a
transient RPC failure aborts the tick with no gauge emission and exactly
one error-counter increment, labelled `("L1", "HeaderByNumber")` for a
failed header fetch and `("L1", "FilterLogs")` for a failed log fetch; the
liveness-expiration monitor's `Run`, by contrast, continues past failed
calls (see the counterexample). -/
theorem C6_amended_checkEvents_aborts_on_rpc_failure (env : TickEnv)
    (g : GlobalConfiguration) (nickname : String) :
    (env.headerByNumber = none →
      checkEvents env g nickname = ⟨[("L1", "HeaderByNumber")], []⟩) ∧
    ∀ header, env.headerByNumber = some header →
      env.filterLogs header.number = none →
      checkEvents env g nickname = ⟨[("L1", "FilterLogs")], []⟩ := by
  constructor
  · intro h
    simp only [checkEvents, h]
  · intro header h1 h2
    simp only [checkEvents, h1, h2]

theorem C6_amended_checkEvents_aborts_on_rpc_failure_witness :
    checkEvents tickEnvNoHeader twoRuleConfig "guard" =
      ⟨[("L1", "HeaderByNumber")], []⟩ ∧
    checkEvents tickEnvNoLogs twoRuleConfig "guard" =
      ⟨[("L1", "FilterLogs")], []⟩ :=
  ⟨(C6_amended_checkEvents_aborts_on_rpc_failure tickEnvNoHeader twoRuleConfig
      "guard").1 rfl,
   (C6_amended_checkEvents_aborts_on_rpc_failure tickEnvNoLogs twoRuleConfig
      "guard").2 ⟨100⟩ rfl rfl⟩

/-- C7: the liveness-expiration monitor's `Run` violates the no-panic
claim: when the `LivenessInterval` contract read fails, the code
increments the error counter but then calls `Uint64()` on the `nil`
`*big.Int` left by the failed call and panics; likewise for a failed
`LastLive` read with at least one owner. -/
theorem C7_liveness_nil_dereference_panics :
    (livenessRun livenessEnvIntervalFail).panicMsg =
      some "runtime error: nil pointer dereference" ∧
    (livenessRun livenessEnvIntervalFail).counterIncs =
      [("l1", "LivenessInterval")] ∧
    (livenessRun livenessEnvLastLiveFail).panicMsg =
      some "runtime error: nil pointer dereference" ∧
    (livenessRun livenessEnvLastLiveFail).counterIncs = [("l1", "LastLive")] := by
  refine ⟨?_, ?_, ?_, ?_⟩ <;> decide

/-- C8 counterexample: hashing does panic on invalid input — an empty
signature makes `FormatAndHash` abort with the panic
`"Invalid signature"` instead of returning a typed failure value. -/
theorem C8_FormatAndHash_panics_cex :
    FormatAndHash "" = Except.error "Invalid signature" := by
  rfl

/-- C8 (amended): an empty or unparsable signature makes `FormatAndHash`
panic with `"Invalid signature"` at its call site (no typed
`InvalidSignature` value is returned); on every parsable signature it
returns the hash without failing. -/
theorem C8_amended_hash_panics_on_invalid (s : String) :
    (formatSignature s = "" →
      FormatAndHash s = Except.error "Invalid signature") ∧
    (formatSignature s ≠ "" →
      FormatAndHash s =
        Except.ok ⟨keccak256 (strToBytes (formatSignature s))⟩) := by
  constructor
  · intro h
    unfold FormatAndHash
    rw [if_pos h]
  · intro h
    unfold FormatAndHash
    rw [if_neg h]

theorem C8_amended_hash_panics_on_invalid_witness :
    FormatAndHash "x(" = Except.error "Invalid signature" ∧
    FormatAndHash "f(a b)" =
      Except.ok ⟨keccak256 (strToBytes (formatSignature "f(a b)"))⟩ :=
  ⟨(C8_amended_hash_panics_on_invalid "x(").1 (by decide),
   (C8_amended_hash_panics_on_invalid "f(a b)").2 (by decide)⟩

/-- C9: canonicalization is idempotent: every already-canonical signature
(word-character name, type-only comma-joined whitespace-free parameter
list) is returned unchanged, and every nonempty `formatSignature` output
is a fixed point of `formatSignature`. -/
theorem C9_canonicalization_idempotent :
    (∀ (name : List Char) (types : List (List Char)), name ≠ [] →
      (∀ c ∈ name, isWordChar c = true) →
      (∀ t ∈ types, t ≠ [] ∧ ∀ c ∈ t,
        goIsSpace c = false ∧ c ≠ ',' ∧ c ≠ ')') →
      formatSigChars (name ++ '(' :: intercalateComma types ++ [')']) =
        name ++ '(' :: intercalateComma types ++ [')']) ∧
    ∀ s : String, formatSignature s ≠ "" →
      formatSignature (formatSignature s) = formatSignature s := by
  constructor
  · exact formatSigChars_canonical
  · intro s hs
    unfold formatSignature at hs ⊢
    have h1 : formatSigChars s.toList ≠ [] := by
      intro h
      rw [h] at hs
      exact hs rfl
    have h2 : (String.mk (formatSigChars s.toList)).toList =
        formatSigChars s.toList := rfl
    rw [h2, formatSigChars_idempotent _ h1]

theorem C9_canonicalization_idempotent_witness :
    formatSigChars ("transfer".toList ++ '(' ::
        intercalateComma ["address".toList, "uint256".toList] ++ [')']) =
      "transfer".toList ++ '(' ::
        intercalateComma ["address".toList, "uint256".toList] ++ [')'] ∧
    formatSignature (formatSignature "transfer(address owner, uint256 amount)") =
      formatSignature "transfer(address owner, uint256 amount)" :=
  ⟨C9_canonicalization_idempotent.1 "transfer".toList
     ["address".toList, "uint256".toList] (by decide) (by decide) (by decide),
   C9_canonicalization_idempotent.2 "transfer(address owner, uint256 amount)"
     (by decide)⟩

/-- C10: `formatSignature` extracts the first `name(` occurrence and ends
the parameter segment at the first `)` of the input: everything after that
`)` is dropped, so a tuple-typed parameter list such as
`"f((uint256,address) x, bool b)"` is silently truncated to
`"f((uint256,address)"`, and `FormatAndHash` signals no failure on it. -/
theorem C10_truncation_at_first_close_paren :
    (∀ name params rest : List Char, name ≠ [] →
      (∀ c ∈ name, isWordChar c = true) → (∀ c ∈ params, c ≠ ')') →
      formatSigChars (name ++ '(' :: (params ++ ')' :: rest)) =
        name ++ '(' :: intercalateComma (cleanParamsOf params) ++ [')']) ∧
    formatSignature "f((uint256,address) x, bool b)" = "f((uint256,address)" ∧
    FormatAndHash "f((uint256,address) x, bool b)" =
      Except.ok ⟨keccak256 (strToBytes "f((uint256,address)")⟩ := by
  refine ⟨formatSigChars_shape, by decide, ?_⟩
  unfold FormatAndHash
  have h : formatSignature "f((uint256,address) x, bool b)" =
      "f((uint256,address)" := by decide
  rw [h, if_neg (by decide)]

theorem C10_truncation_at_first_close_paren_witness :
    (['f'] : List Char) ≠ [] ∧
    formatSigChars (['f'] ++ '(' :: ("x y".toList ++ ')' :: " dropped".toList)) =
      ['f'] ++ '(' :: intercalateComma (cleanParamsOf "x y".toList) ++ [')'] :=
  ⟨by decide,
   C10_truncation_at_first_close_paren.1 ['f'] "x y".toList " dropped".toList
     (by decide) (by decide) (by decide)⟩

end Monitorism
